import Mathlib

/-!
Verification development for the SHL assessment-recommendation backend.

We shallowly embed the core pipeline of the repository:
  backend/app/reranker.py    (LLM reranking and defensive rank parsing)
  backend/app/embeddings.py  (multi-provider embedding generation)
  backend/app/vector_store.py (FAISS-backed nearest-neighbor store)
  backend/app/recommend.py   (recommendation orchestrator)

External effects (HTTP calls to embedding/LLM providers, the filesystem)
are modelled as explicit inputs: a provider call becomes an
`Except String v` outcome parameter, the filesystem becomes a finite map
from paths to file contents.  Numeric vectors use `ℚ` so that squared
Euclidean distances are exact and decidable.
-/

/-- Does `pat` occur at the head of `l`?  (Character-list analogue of the
Python `str.startswith` used to build substring search.) -/
def leadMatch : List Char → List Char → Bool
  | [], _ => true
  | _ :: _, [] => false
  | p :: ps, c :: cs => p == c && leadMatch ps cs

/-- Does `pat` occur anywhere inside `l`?  Models the Python
`keyword in error_msg` substring test. -/
def hasSub (pat : List Char) : List Char → Bool
  | [] => leadMatch pat []
  | c :: cs => leadMatch pat (c :: cs) || hasSub pat cs

/-- Convert a run of decimal digit characters into the natural number it
denotes, as Python `int(num_str)` does for a `\d+` match. -/
def digitsToNat (cs : List Char) : Nat :=
  cs.foldl (fun a c => 10 * a + (c.toNat - 48)) 0

/-- Model of `re.findall(r'\d+', text)`: the maximal runs of decimal digits
of `text`, in appearance order.  `cur` accumulates the digits of the run
currently being read, in reverse. -/
def digitRuns : List Char → List Char → List (List Char)
  | [], cur => if cur.isEmpty then [] else [cur.reverse]
  | c :: cs, cur =>
    if c.isDigit then digitRuns cs (c :: cur)
    else if cur.isEmpty then digitRuns cs []
    else cur.reverse :: digitRuns cs []

/-- The integer tokens of `text` in appearance order
(`[int(s) for s in re.findall(r'\d+', text)]`). -/
def extractNumbers (text : List Char) : List Nat :=
  (digitRuns text []).map digitsToNat

/-- The first loop of `LLMReranker._parse_ranked_order`: walk the extracted
numbers in order, keeping the first occurrence of each distinct value in
`[1, max_num]`; `seen` is the set of already-kept values. -/
def collectRanked (max_num : Nat) : List Nat → List Nat → List Nat
  | [], _ => []
  | n :: ns, seen =>
    if 1 ≤ n ∧ n ≤ max_num ∧ n ∉ seen then
      n :: collectRanked max_num ns (n :: seen)
    else
      collectRanked max_num ns seen

/-- `LLMReranker._parse_ranked_order(text, max_num)` from
backend/app/reranker.py: extract the integers of the response text, keep
first occurrences of in-range values, append the missing positions of
`1..max_num` in ascending order when too few were recovered, and truncate
to `max_num`. -/
def parse_ranked_order (text : List Char) (max_num : Nat) : List Nat :=
  let numbers := extractNumbers text
  let ranked_indices := collectRanked max_num numbers []
  let filled :=
    if ranked_indices.length < max_num then
      ranked_indices ++ (List.range' 1 max_num).filter (fun i => i ∉ ranked_indices)
    else
      ranked_indices
  filled.take max_num

theorem collectRanked_mem {m : Nat} :
    ∀ {ns seen : List Nat} {x : Nat}, x ∈ collectRanked m ns seen →
      1 ≤ x ∧ x ≤ m ∧ x ∉ seen := by
  intro ns
  induction ns with
  | nil => intro seen x hx; simp [collectRanked] at hx
  | cons n ns ih =>
    intro seen x hx
    by_cases h : 1 ≤ n ∧ n ≤ m ∧ n ∉ seen
    · rw [collectRanked, if_pos h] at hx
      rcases List.mem_cons.mp hx with rfl | hx'
      · exact h
      · have := ih hx'
        refine ⟨this.1, this.2.1, fun hs => this.2.2 (List.mem_cons_of_mem _ hs)⟩
    · rw [collectRanked, if_neg h] at hx
      exact ih hx

theorem collectRanked_nodup {m : Nat} :
    ∀ {ns seen : List Nat}, (collectRanked m ns seen).Nodup := by
  intro ns
  induction ns with
  | nil => intro seen; simp [collectRanked]
  | cons n ns ih =>
    intro seen
    by_cases h : 1 ≤ n ∧ n ≤ m ∧ n ∉ seen
    · rw [collectRanked, if_pos h]
      refine List.nodup_cons.mpr ⟨fun hmem => ?_, ih⟩
      have := collectRanked_mem hmem
      exact this.2.2 (List.mem_cons_self _ _)
    · rw [collectRanked, if_neg h]; exact ih

theorem parse_ranked_order_perm (text : List Char) (N : Nat) :
    (parse_ranked_order text N).Perm (List.range' 1 N) := by
  classical
  unfold parse_ranked_order
  set c := collectRanked N (extractNumbers text) [] with hc
  have hcnd : c.Nodup := collectRanked_nodup
  have hcsub : c ⊆ List.range' 1 N := by
    intro x hx
    have := collectRanked_mem (hc ▸ hx)
    exact List.mem_range'_1.mpr ⟨this.1, by omega⟩
  by_cases hlen : c.length < N
  · simp only [if_pos hlen]
    have hperm : (c ++ (List.range' 1 N).filter (fun i => i ∉ c)).Perm
        (List.range' 1 N) := by
      apply List.perm_of_nodup_nodup_toFinset_eq
      · refine List.Nodup.append hcnd (List.Nodup.filter _ (List.nodup_range' 1 N)) ?_
        intro x hxc hxf
        have := (List.mem_filter.mp hxf).2
        simp only [decide_eq_true_eq] at this
        exact this hxc
      · exact List.nodup_range' 1 N
      · apply List.toFinset.ext
        intro x
        constructor
        · intro hx
          rcases List.mem_append.mp hx with hx | hx
          · exact hcsub hx
          · exact (List.mem_filter.mp hx).1
        · intro hx
          by_cases hxc : x ∈ c
          · exact List.mem_append.mpr (Or.inl hxc)
          · refine List.mem_append.mpr (Or.inr (List.mem_filter.mpr ⟨hx, ?_⟩))
            simpa using hxc
    have hlen2 : (c ++ (List.range' 1 N).filter (fun i => i ∉ c)).length = N := by
      have := hperm.length_eq
      simpa using this
    rw [List.take_of_length_le (le_of_eq hlen2)]
    exact hperm
  · simp only [if_neg hlen]
    have hsp : c.Subperm (List.range' 1 N) := hcnd.subperm hcsub
    have hle : c.length ≤ N := by simpa using hsp.length_le
    have heq : c.length = N := by omega
    obtain ⟨w, hwp, hws⟩ := hsp
    have hwl : w = List.range' 1 N := by
      apply hws.eq_of_length
      rw [hwp.length_eq, heq]
      simp
    rw [List.take_of_length_le (le_of_eq heq)]
    exact hwl ▸ hwp.symm

/-- C1: for every response text and every `N ≥ 1` the rank parser returns a
complete permutation of `1..N` (first occurrences of in-range integer
tokens, missing positions appended in ascending order); on
"3, 1, 1, 99, 2" with N = 3 it yields [3, 1, 2], and on a text with no
integers and N = 4 it yields [1, 2, 3, 4]. -/
theorem parse_ranked_order_complete_permutation (text : List Char) (N : Nat)
    (hN : 1 ≤ N) :
    (parse_ranked_order text N).Perm (List.range' 1 N) ∧
      parse_ranked_order ("3, 1, 1, 99, 2".toList) 3 = [3, 1, 2] ∧
      parse_ranked_order ("no integers appear in this text".toList) 4
        = [1, 2, 3, 4] := by
  refine ⟨parse_ranked_order_perm text N, by decide, by decide⟩

/-- Closed witness for C1 at a concrete text and count. -/
theorem parse_ranked_order_complete_permutation_witness :
    (parse_ranked_order ("2 then 5 then 2".toList) 3).Perm (List.range' 1 3) := by
  exact (parse_ranked_order_complete_permutation ("2 then 5 then 2".toList) 3
    (by decide)).1

/-! ## Embedding provider chain (backend/app/embeddings.py) -/

/-- An embedding vector; rationals stand in for the floats of the source so
distances are exact. -/
abbrev Vec := List ℚ

/-- Python `str.lower()` on the character list of a message (the code only
ever lowercases ASCII exception text). -/
def lowerChars (cs : List Char) : List Char := cs.map Char.toLower

/-- The keyword list of `EmbeddingGenerator` used to recognize
quota/rate-limit failures from a stringified exception:
`['quota', '429', 'insufficient_quota', 'rate_limit', 'too_many_requests']`
tested as substrings of the lowercased message. -/
def quotaKeywords : List String :=
  ["quota", "429", "insufficient_quota", "rate_limit", "too_many_requests"]

/-- `any(keyword in error_msg for keyword in ...)` on the lowercased
message, as in the OpenAI branch of `embed` and in `embed_batch`. -/
def isQuotaErrorFull (msg : String) : Bool :=
  quotaKeywords.any (fun k => hasSub k.toList (lowerChars msg.toList))

/-- The narrower check of the Gemini branch of `embed`:
`'quota' in error_msg or '429' in error_msg`. -/
def isQuotaErrorGemini (msg : String) : Bool :=
  hasSub "quota".toList (lowerChars msg.toList) ||
    hasSub "429".toList (lowerChars msg.toList)

/-- Message of the RuntimeError raised when OpenAI appears quota-limited. -/
def openaiQuotaMessage (m : String) : String :=
  "OpenAI API quota exceeded. Error: " ++ m ++
    ". Please use Gemini API or sentence-transformers fallback."

/-- Message of the RuntimeError raised when Gemini appears quota-limited. -/
def geminiQuotaMessage (m : String) : String :=
  "Gemini API quota exceeded. Error: " ++ m ++
    ". Please use sentence-transformers fallback."

/-- A failure escaping an embedding call: either the distinctly signalled
quota RuntimeError or any other exception re-raised unchanged. -/
inductive EmbedFailure
  | quota (message : String)
  | other (message : String)
deriving DecidableEq, Repr

/-- `EmbeddingGenerator.embed(text)`.  The single provider API call is an
explicit outcome (`.ok` with the provider's vector, `.error` with the
stringified exception); the function classifies a failure and either
signals quota distinctly or re-raises unchanged. -/
def embed (provider : String) (call : Except String Vec) :
    Except EmbedFailure Vec :=
  if provider = "openai" then
    match call with
    | .ok v => .ok v
    | .error m =>
      if isQuotaErrorFull m then .error (.quota (openaiQuotaMessage m))
      else .error (.other m)
  else if provider = "gemini" then
    match call with
    | .ok v => .ok v
    | .error m =>
      if isQuotaErrorGemini m then .error (.quota (geminiQuotaMessage m))
      else .error (.other m)
  else
    .error (.other ("Unsupported provider: " ++ provider))

/-- The chunking loop header of `embed_batch`:
`for i in range(0, len(texts), batch_size): batch = texts[i:i+batch_size]`.
Empty input or a zero step yields no chunks. -/
def chunkList (batch_size : Nat) (l : List α) : List (List α) :=
  if h : l.length = 0 ∨ batch_size = 0 then []
  else l.take batch_size :: chunkList batch_size (l.drop batch_size)
termination_by l.length
decreasing_by
  push_neg at h
  simp only [List.length_drop]
  omega

/-- The except-clause of `embed_batch`: keyword classification, then the
provider-specific quota RuntimeError, otherwise the original exception is
re-raised. -/
def classifyBatchError (provider : String) (m : String) : EmbedFailure :=
  if isQuotaErrorFull m then
    if provider = "openai" then .quota (openaiQuotaMessage m)
    else if provider = "gemini" then .quota (geminiQuotaMessage m)
    else .other m
  else .other m

/-- The chunk loop body of `embed_batch`: each chunk is one provider call
(`callChunk`); a failing chunk aborts the whole batch with a classified
error, successful chunk results are concatenated in order. -/
def embed_batch_chunks (provider : String)
    (callChunk : List String → Except String (List Vec)) :
    List (List String) → Except EmbedFailure (List Vec)
  | [] => .ok []
  | c :: cs =>
    match callChunk c with
    | .error m => .error (classifyBatchError provider m)
    | .ok vs =>
      match embed_batch_chunks provider callChunk cs with
      | .error e => .error e
      | .ok rest => .ok (vs ++ rest)

/-- `EmbeddingGenerator.embed_batch(texts, batch_size)`: chunk the input and
process the chunks in order. -/
def embed_batch (provider : String)
    (callChunk : List String → Except String (List Vec))
    (texts : List String) (batch_size : Nat) : Except EmbedFailure (List Vec) :=
  embed_batch_chunks provider callChunk (chunkList batch_size texts)

theorem chunkList_flatten {α : Type} (bs : Nat) (hbs : bs ≠ 0) :
    ∀ l : List α, (chunkList bs l).flatten = l := by
  suffices H : ∀ (n : Nat) (l : List α), l.length ≤ n →
      (chunkList bs l).flatten = l by
    exact fun l => H l.length l le_rfl
  intro n
  induction n with
  | zero =>
    intro l hl
    have : l.length = 0 := Nat.le_zero.mp hl
    rw [chunkList, dif_pos (Or.inl this)]
    simpa using (List.eq_nil_of_length_eq_zero this).symm
  | succ n ih =>
    intro l hl
    by_cases hl0 : l.length = 0
    · rw [chunkList, dif_pos (Or.inl hl0)]
      simpa using (List.eq_nil_of_length_eq_zero hl0).symm
    · rw [chunkList, dif_neg (by tauto)]
      have hdrop : (l.drop bs).length ≤ n := by
        simp only [List.length_drop]; omega
      simp only [List.flatten_cons, ih _ hdrop, List.take_append_drop]

/-- C2 counterexample: an error whose message carries the rate-limit marker
(but neither "quota" nor "429") is NOT quota-classified by the Gemini
branch of `embed` — it propagates unchanged — although the repository's own
full keyword list recognizes it as a rate-limit marker.  This refutes the
claim that both providers classify identically on both operations. -/
theorem gemini_embed_misses_rate_limit_marker :
    embed "gemini" (.error "rate_limit exceeded for model") =
      .error (.other "rate_limit exceeded for model") ∧
      isQuotaErrorFull "rate_limit exceeded for model" = true := by
  constructor
  · rfl
  · rfl

/-- C2 (amended): `embed` on OpenAI classifies a failure as quota exactly
when the lowercased message contains one of the five keywords; the Gemini
branch of `embed` uses only the "quota"/"429" markers; `embed_batch` uses
the five-keyword test for both providers (first failing chunk); quota
failures are signalled distinctly with a provider-specific message and all
other failures propagate with their original message unchanged. -/
theorem embed_quota_classification (m : String) (v : Vec) :
    (embed "openai" (.ok v) = .ok v) ∧
    (embed "gemini" (.ok v) = .ok v) ∧
    (embed "openai" (.error m) =
      .error (if isQuotaErrorFull m then .quota (openaiQuotaMessage m)
              else .other m)) ∧
    (embed "gemini" (.error m) =
      .error (if isQuotaErrorGemini m then .quota (geminiQuotaMessage m)
              else .other m)) ∧
    (∀ (F : List String → Except String (List Vec)) (texts : List String)
        (bs : Nat), bs ≠ 0 → texts ≠ [] → F (texts.take bs) = .error m →
      embed_batch "openai" F texts bs =
        .error (if isQuotaErrorFull m then .quota (openaiQuotaMessage m)
                else .other m)) ∧
    (∀ (F : List String → Except String (List Vec)) (texts : List String)
        (bs : Nat), bs ≠ 0 → texts ≠ [] → F (texts.take bs) = .error m →
      embed_batch "gemini" F texts bs =
        .error (if isQuotaErrorFull m then .quota (geminiQuotaMessage m)
                else .other m)) := by
  refine ⟨rfl, rfl, ?_, ?_, ?_, ?_⟩
  · by_cases h : isQuotaErrorFull m <;> simp [embed, h]
  · by_cases h : isQuotaErrorGemini m <;> simp [embed, h]
  · intro F texts bs hbs htx hF
    have hne : ¬(texts.length = 0 ∨ bs = 0) := by
      push_neg
      exact ⟨fun hz => htx (List.eq_nil_of_length_eq_zero hz), hbs⟩
    rw [embed_batch, chunkList, dif_neg hne]
    rw [embed_batch_chunks, hF]
    by_cases h : isQuotaErrorFull m <;> simp [classifyBatchError, h]
  · intro F texts bs hbs htx hF
    have hne : ¬(texts.length = 0 ∨ bs = 0) := by
      push_neg
      exact ⟨fun hz => htx (List.eq_nil_of_length_eq_zero hz), hbs⟩
    rw [embed_batch, chunkList, dif_neg hne]
    rw [embed_batch_chunks, hF]
    by_cases h : isQuotaErrorFull m <;> simp [classifyBatchError, h]

/-- Closed witness for the amended C2 classification at concrete messages. -/
theorem embed_quota_classification_witness :
    embed "openai" (.error "boom") = .error (.other "boom") ∧
      embed_batch "openai" (fun _ => .error "insufficient_quota") ["a"] 1 =
        .error (.quota (openaiQuotaMessage "insufficient_quota")) := by
  constructor
  · have h := (embed_quota_classification "boom" []).2.2.1
    rw [h]
    have hq : isQuotaErrorFull "boom" = false := rfl
    rw [hq]
    rfl
  · have h := (embed_quota_classification "insufficient_quota" []).2.2.2.2.1
      (fun _ => .error "insufficient_quota") ["a"] 1 (by decide) (by decide) rfl
    rw [h]
    have hq : isQuotaErrorFull "insufficient_quota" = true := rfl
    rw [hq]
    rfl

theorem embed_batch_chunks_ok_length (provider : String)
    (F : List String → Except String (List Vec))
    (hF : ∀ c vs, F c = .ok vs → vs.length = c.length) :
    ∀ (cs : List (List String)) (out : List Vec),
      embed_batch_chunks provider F cs = .ok out →
        out.length = cs.flatten.length := by
  intro cs
  induction cs with
  | nil =>
    intro out h
    simp only [embed_batch_chunks] at h
    cases h
    simp
  | cons c cs ih =>
    intro out h
    rw [embed_batch_chunks] at h
    cases hc : F c with
    | error m => rw [hc] at h; cases h
    | ok vs =>
      rw [hc] at h
      cases hrest : embed_batch_chunks provider F cs with
      | error e => rw [hrest] at h; cases h
      | ok rest =>
        rw [hrest] at h
        cases h
        have h1 := hF c vs hc
        have h2 := ih rest hrest
        simp [h1, h2]

theorem embed_batch_chunks_map (provider : String) (g : String → Vec)
    (F : List String → Except String (List Vec))
    (hF : ∀ c, F c = .ok (c.map g)) :
    ∀ cs : List (List String),
      embed_batch_chunks provider F cs = .ok (cs.flatten.map g) := by
  intro cs
  induction cs with
  | nil => simp [embed_batch_chunks]
  | cons c cs ih =>
    rw [embed_batch_chunks, hF c, ih]
    simp

/-- C10: on success `embed_batch` returns exactly one embedding per input
text — if every provider chunk call yields one vector per text then a
successful batch result has the length of the input; and when every chunk
call computes `map g`, the whole batch computes `texts.map g`, so the
embeddings appear in input order, as the in-order concatenation of the
chunk results. -/
theorem embed_batch_one_per_text (provider : String)
    (F : List String → Except String (List Vec)) (texts : List String)
    (bs : Nat) (hbs : 0 < bs) :
    ((∀ c vs, F c = .ok vs → vs.length = c.length) →
      ∀ out, embed_batch provider F texts bs = .ok out →
        out.length = texts.length) ∧
    (∀ g : String → Vec, (∀ c, F c = .ok (c.map g)) →
      embed_batch provider F texts bs = .ok (texts.map g)) := by
  constructor
  · intro hF out h
    have := embed_batch_chunks_ok_length provider F hF (chunkList bs texts) out h
    rwa [chunkList_flatten bs (by omega) texts] at this
  · intro g hF
    have := embed_batch_chunks_map provider g F hF (chunkList bs texts)
    rwa [chunkList_flatten bs (by omega) texts] at this

/-- Closed witness for C10 at a concrete batch. -/
theorem embed_batch_one_per_text_witness :
    embed_batch "openai" (fun c => .ok (c.map (fun _ => ([] : Vec))))
      ["a", "b", "c"] 2 = .ok [[], [], []] := by
  have h := (embed_batch_one_per_text "openai"
    (fun c => .ok (c.map (fun _ => ([] : Vec)))) ["a", "b", "c"] 2
    (by decide)).2 (fun _ => []) (fun _ => rfl)
  simpa using h

/-! ## Orchestrator embedding fallback (backend/app/recommend.py,
`get_embedding_generator_with_fallback` of backend/app/embeddings.py) -/

/-- The three embedding providers of the configured chain:
OpenAI, Gemini, and the local sentence-transformers model. -/
inductive ProviderId
  | openai
  | gemini
  | localST
deriving DecidableEq, Repr

/-- `get_embedding_generator_with_fallback(current)`: an OpenAI generator
falls back to Gemini when `GEMINI_API_KEY` is set, otherwise (and for every
other current provider) to the local sentence-transformers model. -/
def get_embedding_generator_with_fallback (geminiKeyPresent : Bool) :
    ProviderId → ProviderId
  | .openai => if geminiKeyPresent then .gemini else .localST
  | .gemini => .localST
  | .localST => .localST

/-- The keyword test of `RecommendationEngine.recommend` and
`_load_or_build_index` on the lowercased message of a caught exception
(the same five keywords as the generator's own classifier). -/
def isQuotaErrorOrch (msg : String) : Bool :=
  quotaKeywords.any (fun k => hasSub k.toList (lowerChars msg.toList))

/-- The query-embedding step of `RecommendationEngine.recommend`:
`embedOn p` is the outcome of `embed` on provider `p`; a caught failure
matching the quota keywords swaps in the fallback provider and retries the
same call once; any other failure is re-raised.  Returns the outcome
together with the engine's provider afterwards. -/
def recommendEmbedQuery (embedOn : ProviderId → Except String Vec)
    (geminiKeyPresent : Bool) (current : ProviderId) :
    Except String Vec × ProviderId :=
  match embedOn current with
  | .ok v => (.ok v, current)
  | .error m =>
    if isQuotaErrorOrch m then
      let p := get_embedding_generator_with_fallback geminiKeyPresent current
      (embedOn p, p)
    else (.error m, current)

/-- The catalog-embedding step of `RecommendationEngine._load_or_build_index`:
identical quota-fallback wrapper around `embed_batch`. -/
def buildIndexEmbedBatch (batchOn : ProviderId → Except String (List Vec))
    (geminiKeyPresent : Bool) (current : ProviderId) :
    Except String (List Vec) × ProviderId :=
  match batchOn current with
  | .ok vs => (.ok vs, current)
  | .error m =>
    if isQuotaErrorOrch m then
      let p := get_embedding_generator_with_fallback geminiKeyPresent current
      (batchOn p, p)
    else (.error m, current)

/-- C3: for the query embedding and for the startup catalog embedding, a
quota-classified failure substitutes exactly the next provider of the chain
and retries the same operation exactly once against it (its outcome, even a
failure, is final — no second substitution); a success or a non-quota
failure leaves the provider unchanged, the failure propagating as is; and
the chain terminates at the local model. -/
theorem orchestrator_quota_fallback
    (embedOn : ProviderId → Except String Vec)
    (batchOn : ProviderId → Except String (List Vec))
    (gk : Bool) (p : ProviderId) :
    (∀ v, embedOn p = .ok v →
      recommendEmbedQuery embedOn gk p = (.ok v, p)) ∧
    (∀ m, embedOn p = .error m → isQuotaErrorOrch m = true →
      recommendEmbedQuery embedOn gk p =
        (embedOn (get_embedding_generator_with_fallback gk p),
         get_embedding_generator_with_fallback gk p)) ∧
    (∀ m, embedOn p = .error m → isQuotaErrorOrch m = false →
      recommendEmbedQuery embedOn gk p = (.error m, p)) ∧
    (∀ vs, batchOn p = .ok vs →
      buildIndexEmbedBatch batchOn gk p = (.ok vs, p)) ∧
    (∀ m, batchOn p = .error m → isQuotaErrorOrch m = true →
      buildIndexEmbedBatch batchOn gk p =
        (batchOn (get_embedding_generator_with_fallback gk p),
         get_embedding_generator_with_fallback gk p)) ∧
    (∀ m, batchOn p = .error m → isQuotaErrorOrch m = false →
      buildIndexEmbedBatch batchOn gk p = (.error m, p)) ∧
    get_embedding_generator_with_fallback gk .localST = .localST := by
  refine ⟨?_, ?_, ?_, ?_, ?_, ?_, rfl⟩
  · intro v hv; simp [recommendEmbedQuery, hv]
  · intro m hm hq; simp [recommendEmbedQuery, hm, hq]
  · intro m hm hq; simp [recommendEmbedQuery, hm, hq]
  · intro vs hvs; simp [buildIndexEmbedBatch, hvs]
  · intro m hm hq; simp [buildIndexEmbedBatch, hm, hq]
  · intro m hm hq; simp [buildIndexEmbedBatch, hm, hq]

/-- Closed witness for C3: a primary quota failure on OpenAI retries once
against Gemini; a non-quota failure propagates unchanged. -/
theorem orchestrator_quota_fallback_witness :
    recommendEmbedQuery
        (fun p => if p = .openai then .error "429 too_many_requests" else .ok [1])
        true .openai = (.ok [1], .gemini) ∧
      recommendEmbedQuery
        (fun p => if p = .openai then .error "connection reset" else .ok [1])
        true .openai = (.error "connection reset", .openai) := by
  constructor
  · have h := (orchestrator_quota_fallback
      (fun p => if p = .openai then .error "429 too_many_requests" else .ok [1])
      (fun _ => .ok []) true .openai).2.1 "429 too_many_requests" rfl rfl
    simpa [get_embedding_generator_with_fallback] using h
  · have h := (orchestrator_quota_fallback
      (fun p => if p = .openai then .error "connection reset" else .ok [1])
      (fun _ => .ok []) true .openai).2.2.1 "connection reset" rfl rfl
    simpa using h

/-! ## Vector store (backend/app/vector_store.py) -/

/-- An assessment dictionary of the catalog.  Every field is optional
because the code reads them with `dict.get` defaults. -/
structure Assessment where
  name : Option String
  description : Option String
  url : Option String
  type : Option String
deriving DecidableEq, Repr, Inhabited

/-- State of `FAISSVectorStore`: the declared dimension, the vectors held
by the FAISS `IndexFlatL2` (its `ntotal` is `vectors.length`), and the
assessment metadata list. -/
structure VectorStore where
  dimension : Nat
  vectors : List Vec
  assessments : List Assessment
deriving Repr

/-- `FAISSVectorStore.__init__(dimension=384)`: empty index, empty
metadata. -/
def VectorStore.init (dimension : Nat := 384) : VectorStore :=
  ⟨dimension, [], []⟩

/-- Squared Euclidean distance, the metric of `IndexFlatL2`. -/
def sqDist (q v : Vec) : ℚ :=
  (List.zipWith (fun a b => (a - b) ^ 2) q v).sum

/-- FAISS result order: ascending distance, ties by insertion index.  For
`IndexFlatL2` the `k` returned neighbors are sorted this way. -/
def candLE (a b : Nat × ℚ) : Prop :=
  a.2 < b.2 ∨ (a.2 = b.2 ∧ a.1 ≤ b.1)

instance : DecidableRel candLE := fun a b => by
  unfold candLE; exact inferInstance

instance : IsTotal (Nat × ℚ) candLE := by
  constructor
  intro a b
  rcases lt_trichotomy a.2 b.2 with h | h | h
  · exact Or.inl (Or.inl h)
  · rcases Nat.le_total a.1 b.1 with h1 | h1
    · exact Or.inl (Or.inr ⟨h, h1⟩)
    · exact Or.inr (Or.inr ⟨h.symm, h1⟩)
  · exact Or.inr (Or.inl h)

instance : IsTrans (Nat × ℚ) candLE := by
  constructor
  intro a b c hab hbc
  rcases hab with hab | ⟨hab, hab'⟩
  · rcases hbc with hbc | ⟨hbc, _⟩
    · exact Or.inl (hab.trans hbc)
    · exact Or.inl (hbc ▸ hab)
  · rcases hbc with hbc | ⟨hbc, hbc'⟩
    · exact Or.inl (hab ▸ hbc)
    · exact Or.inr ⟨hab.trans hbc, hab'.trans hbc'⟩

/-- Model of `self.index.search(query, n)` on `IndexFlatL2`: the `n`
nearest stored vectors as `(insertion index, squared distance)` pairs,
ascending by distance with ties broken by insertion order. -/
def knnSearch (vectors : List Vec) (q : Vec) (n : Nat) : List (Nat × ℚ) :=
  (List.insertionSort candLE ((vectors.map (sqDist q)).enum)).take n

/-- `FAISSVectorStore.search(query_embedding, top_k)`: empty result on an
empty index, otherwise ask FAISS for `min(top_k, len(assessments))`
neighbors and pair each in-range index with its assessment. -/
def VectorStore.search (s : VectorStore) (query_embedding : Vec)
    (top_k : Nat) : List (Assessment × ℚ) :=
  if s.vectors.length = 0 then []
  else
    let hits := knnSearch s.vectors query_embedding
      (min top_k s.assessments.length)
    hits.filterMap (fun p =>
      if p.1 < s.assessments.length then
        (s.assessments.get? p.1).map (fun a => (a, p.2))
      else none)

/-- The index/distance pairs underlying `search`, before indices are
resolved to assessments; used to state the tie-breaking order. -/
def VectorStore.searchHits (s : VectorStore) (query_embedding : Vec)
    (top_k : Nat) : List (Nat × ℚ) :=
  knnSearch s.vectors query_embedding (min top_k s.assessments.length)

/-- `FAISSVectorStore.add_assessments(assessments, embeddings)`: equal
lengths are required (ValueError otherwise); on success the previous
contents are replaced wholesale, the index rebuilt from the embeddings. -/
def add_assessments (s : VectorStore) (assessments : List Assessment)
    (embeddings : List Vec) : Except String VectorStore :=
  if assessments.length ≠ embeddings.length then
    .error "Number of assessments must match number of embeddings"
  else
    .ok { s with assessments := assessments, vectors := embeddings }

/-- Contents of a file at a path: the binary FAISS index (dimension plus
stored vectors) or the JSON metadata document. -/
inductive FileData
  | indexFile (dim : Nat) (vectors : List Vec)
  | metaFile (assessments : List Assessment)

/-- The filesystem, as a map from paths to file contents. -/
def FS : Type := String → Option FileData

/-- Writing one file. -/
def fsWrite (fs : FS) (path : String) (d : FileData) : FS :=
  fun q => if q = path then some d else fs q

/-- `FAISSVectorStore.save(index_path, metadata_path)`: write the index
and the metadata document as a pair. -/
def VectorStore.save (s : VectorStore) (index_path metadata_path : String)
    (fs : FS) : FS :=
  fsWrite (fsWrite fs index_path (.indexFile s.dimension s.vectors))
    metadata_path (.metaFile s.assessments)

/-- `FAISSVectorStore.load(index_path, metadata_path)`: when both files
exist, install the persisted index and metadata (no cross-validation of
their counts), refreshing the dimension from the index when both are
nonempty; otherwise print a notice and leave the store unchanged. -/
def VectorStore.load (s : VectorStore) (index_path metadata_path : String)
    (fs : FS) : VectorStore :=
  match fs index_path, fs metadata_path with
  | some (.indexFile d vs), some (.metaFile as) =>
    if as ≠ [] ∧ vs.length ≠ 0 then
      { dimension := d, vectors := vs, assessments := as }
    else
      { s with vectors := vs, assessments := as }
  | _, _ => s

theorem sqDist_nonneg (q v : Vec) : 0 ≤ sqDist q v := by
  have H : ∀ u w : Vec, 0 ≤ (List.zipWith (fun a b => (a - b) ^ 2) u w).sum := by
    intro u
    induction u with
    | nil => intro w; simp
    | cons a as ih =>
      intro w
      cases w with
      | nil => simp
      | cons b bs =>
        simp only [List.zipWith_cons_cons, List.sum_cons]
        have h1 : (0:ℚ) ≤ (a - b) ^ 2 := sq_nonneg _
        have h2 := ih bs
        linarith
  exact H q v

theorem filterMap_eq_map_of_forall {α β : Type} (l : List α)
    (f : α → Option β) (g : α → β) (h : ∀ a ∈ l, f a = some (g a)) :
    l.filterMap f = l.map g := by
  induction l with
  | nil => simp
  | cons a l ih =>
    rw [List.filterMap_cons, h a (List.mem_cons_self a l), List.map_cons,
      ih (fun b hb => h b (List.mem_cons_of_mem a hb))]

theorem knnSearch_sorted (vs : List Vec) (q : Vec) (n : Nat) :
    List.Sorted candLE (knnSearch vs q n) := by
  unfold knnSearch
  exact (List.sorted_insertionSort candLE _).sublist (List.take_sublist _ _)

theorem knnSearch_mem_enum {vs : List Vec} {q : Vec} {n : Nat}
    {p : Nat × ℚ} (hp : p ∈ knnSearch vs q n) :
    p ∈ (vs.map (sqDist q)).enum := by
  unfold knnSearch at hp
  have h1 := (List.take_sublist n _).subset hp
  exact (List.perm_insertionSort candLE _).subset h1

theorem knnSearch_mem_spec {vs : List Vec} {q : Vec} {n : Nat}
    {p : Nat × ℚ} (hp : p ∈ knnSearch vs q n) :
    p.1 < vs.length ∧ p.2 = sqDist q (vs.getD p.1 []) := by
  have h := List.mem_enum_iff_getElem?.mp (knnSearch_mem_enum hp)
  rw [List.getElem?_map] at h
  cases hv : vs[p.1]? with
  | none => rw [hv] at h; simp at h
  | some v =>
    rw [hv] at h
    simp only [Option.map_some'] at h
    have hlen : p.1 < vs.length := by
      by_contra hc
      rw [List.getElem?_eq_none (by omega)] at hv
      cases hv
    have hg : vs.getD p.1 [] = v := by
      rw [List.getD_eq_getElem?_getD, hv]
      rfl
    exact ⟨hlen, by rw [hg]; exact (Option.some.inj h).symm⟩

theorem knnSearch_length (vs : List Vec) (q : Vec) (n : Nat) :
    (knnSearch vs q n).length = min n vs.length := by
  unfold knnSearch
  rw [List.length_take, (List.perm_insertionSort candLE _).length_eq,
    List.enum_length, List.length_map]

theorem knnSearch_fst_nodup (vs : List Vec) (q : Vec) (n : Nat) :
    ((knnSearch vs q n).map Prod.fst).Nodup := by
  unfold knnSearch
  apply List.Sublist.nodup ((List.take_sublist _ _).map Prod.fst)
  have hperm : (List.map Prod.fst
      (List.insertionSort candLE ((vs.map (sqDist q)).enum))).Perm
      (List.map Prod.fst ((vs.map (sqDist q)).enum)) :=
    (List.perm_insertionSort candLE _).map Prod.fst
  rw [hperm.nodup_iff, List.enum_map_fst]
  exact List.nodup_range _

theorem knnSearch_pairwise_strict (vs : List Vec) (q : Vec) (n : Nat) :
    List.Pairwise (fun p p' : Nat × ℚ =>
      p.2 < p'.2 ∨ (p.2 = p'.2 ∧ p.1 < p'.1)) (knnSearch vs q n) := by
  have h1 : List.Pairwise candLE (knnSearch vs q n) := knnSearch_sorted vs q n
  have h2 : List.Pairwise (fun p p' : Nat × ℚ => p.1 ≠ p'.1)
      (knnSearch vs q n) :=
    List.pairwise_map.mp (knnSearch_fst_nodup vs q n)
  refine (h1.and h2).imp ?_
  rintro a b ⟨hab, hne⟩
  rcases hab with h | ⟨he, hle⟩
  · exact Or.inl h
  · exact Or.inr ⟨he, lt_of_le_of_ne hle hne⟩

theorem search_eq_map_hits (s : VectorStore) (q : Vec) (k : Nat)
    (hinv : s.vectors.length = s.assessments.length) :
    s.search q k = (s.searchHits q k).map
      (fun p => (s.assessments.getD p.1 default, p.2)) := by
  unfold VectorStore.search VectorStore.searchHits
  by_cases hz : s.vectors.length = 0
  · rw [if_pos hz]
    have : s.vectors = [] := List.eq_nil_of_length_eq_zero hz
    rw [this]
    have : knnSearch [] q (min k s.assessments.length) = [] := by
      unfold knnSearch
      simp [List.insertionSort]
    rw [this]
    rfl
  · rw [if_neg hz]
    apply filterMap_eq_map_of_forall
    intro p hp
    have hmem := knnSearch_mem_spec hp
    have hlt : p.1 < s.assessments.length := hinv ▸ hmem.1
    rw [if_pos hlt]
    rw [List.get?_eq_getElem?, List.getElem?_eq_getElem hlt]
    simp only [Option.map_some']
    congr 1
    rw [List.getD_eq_getElem?_getD, List.getElem?_eq_getElem hlt]
    rfl

/-- C4: with the store invariant (as many vectors as assessments), `search`
returns at most `min(k, N)` results, ordered non-decreasing by squared
Euclidean distance, every distance nonnegative; the results are exactly the
FAISS hits resolved to assessments, and those hits are strictly ordered by
(distance, storage index), so ties are broken by original storage order;
an empty index yields the empty list for every `k`. -/
theorem search_ordered (s : VectorStore) (q : Vec) (k : Nat)
    (hinv : s.vectors.length = s.assessments.length) :
    (s.search q k).length ≤ min k s.assessments.length ∧
    List.Pairwise (fun r r' : Assessment × ℚ => r.2 ≤ r'.2) (s.search q k) ∧
    (∀ r ∈ s.search q k, 0 ≤ r.2) ∧
    s.search q k = (s.searchHits q k).map
      (fun p => (s.assessments.getD p.1 default, p.2)) ∧
    List.Pairwise (fun p p' : Nat × ℚ =>
      p.2 < p'.2 ∨ (p.2 = p'.2 ∧ p.1 < p'.1)) (s.searchHits q k) ∧
    (s.vectors = [] → ∀ k', s.search q k' = []) := by
  have hmap := search_eq_map_hits s q k hinv
  refine ⟨?_, ?_, ?_, hmap, ?_, ?_⟩
  · rw [hmap, List.length_map]
    unfold VectorStore.searchHits
    rw [knnSearch_length]
    omega
  · rw [hmap]
    refine List.Pairwise.map _ ?_ (knnSearch_sorted s.vectors q _)
    rintro a b (h | ⟨h, _⟩)
    · exact le_of_lt h
    · exact le_of_eq h
  · intro r hr
    rw [hmap] at hr
    obtain ⟨p, hp, rfl⟩ := List.mem_map.mp hr
    have := (knnSearch_mem_spec hp).2
    simpa [this] using sqDist_nonneg q (s.vectors.getD p.1 [])
  · exact knnSearch_pairwise_strict s.vectors q _
  · intro hnil k'
    unfold VectorStore.search
    rw [if_pos (by rw [hnil]; rfl)]

/-- Closed witness for C4 at a concrete two-entry store. -/
theorem search_ordered_witness :
    ((VectorStore.mk 1 [[0], [1]] [default, default]).search [1] 3).length ≤
      min 3 2 := by
  have h := search_ordered (VectorStore.mk 1 [[0], [1]] [default, default])
    [1] 3 rfl
  simpa using h.1

theorem sqDist_self (v : Vec) : sqDist v v = 0 := by
  unfold sqDist
  induction v with
  | nil => simp
  | cons a as ih =>
    simp only [List.zipWith_cons_cons, List.sum_cons]
    rw [ih]
    ring

theorem sqDist_eq_zero_iff (q v : Vec) (h : q.length = v.length) :
    sqDist q v = 0 ↔ v = q := by
  unfold sqDist
  induction q generalizing v with
  | nil =>
    cases v with
    | nil => simp
    | cons b bs => simp at h
  | cons a as ih =>
    cases v with
    | nil => simp at h
    | cons b bs =>
      simp only [List.zipWith_cons_cons, List.sum_cons]
      have hnn1 : (0:ℚ) ≤ (a - b) ^ 2 := sq_nonneg _
      have hnn2 : 0 ≤ (List.zipWith (fun a b => (a - b) ^ 2) as bs).sum := by
        have := sqDist_nonneg as bs
        unfold sqDist at this
        exact this
      rw [add_eq_zero_iff_of_nonneg hnn1 hnn2]
      have hlen : as.length = bs.length := by simpa using h
      rw [ih bs hlen]
      constructor
      · rintro ⟨h1, rfl⟩
        have : a - b = 0 := by
          have := sq_eq_zero_iff.mp h1
          exact this
        have : b = a := by linarith [sub_eq_zero.mp this]
        rw [this]
      · intro hbq
        injection hbq with h1 h2
        subst h1; subst h2
        constructor
        · simp
        · rfl

theorem enum_map_mem (f : Vec → ℚ) (E : List Vec) (m : Nat)
    (hm : m < E.length) : (m, f (E.getD m [])) ∈ (E.map f).enum := by
  rw [List.mem_enum_iff_getElem?]
  show (E.map f)[m]? = some (f (E.getD m []))
  rw [List.getElem?_map, List.getElem?_eq_getElem hm]
  rw [List.getD_eq_getElem?_getD, List.getElem?_eq_getElem hm]
  rfl

theorem getD_mem_of_lt (E : List Vec) (m : Nat) (hm : m < E.length) :
    E.getD m [] ∈ E := by
  rw [List.getD_eq_getElem?_getD, List.getElem?_eq_getElem hm]
  exact List.getElem_mem hm

/-- C5: after `add_assessments` of an equal-length pair, searching with a
query equal to stored vector `i` puts at the head of the results the
assessment of the earliest stored duplicate `j ≤ i` of that vector, paired
with distance 0; in particular, when no earlier vector equals vector `i`,
the first result is assessment `i` itself with distance 0. -/
theorem search_exact_match (s0 : VectorStore) (A : List Assessment)
    (E : List Vec) (i k : Nat) (hlen : A.length = E.length)
    (hi : i < E.length) (hk : 1 ≤ k)
    (hdim : ∀ v ∈ E, v.length = (E.getD i []).length) :
    ∃ s, add_assessments s0 A E = .ok s ∧
      ∃ j, j ≤ i ∧ E.getD j [] = E.getD i [] ∧
        (∀ m, m < j → E.getD m [] ≠ E.getD i []) ∧
        (s.search (E.getD i []) k).head? = some (A.getD j default, 0) ∧
        ((∀ m, m < i → E.getD m [] ≠ E.getD i []) →
          (s.search (E.getD i []) k).head? = some (A.getD i default, 0)) := by
  refine ⟨{ s0 with assessments := A, vectors := E }, ?_, ?_⟩
  · unfold add_assessments
    rw [if_neg (by omega)]
  set s : VectorStore := { s0 with assessments := A, vectors := E } with hs
  set q := E.getD i [] with hq
  set sorted := List.insertionSort candLE ((E.map (sqDist q)).enum)
    with hsortdef
  have hslen : sorted.length = E.length := by
    rw [hsortdef, (List.perm_insertionSort candLE _).length_eq,
      List.enum_length, List.length_map]
  have hsne : sorted ≠ [] := by
    intro hnil
    rw [hnil] at hslen
    simp at hslen
    omega
  obtain ⟨h0, t, hht⟩ := List.exists_cons_of_ne_nil hsne
  have hmin : ∀ b ∈ sorted, candLE h0 b := by
    intro b hb
    rw [hht] at hb
    rcases List.mem_cons.mp hb with rfl | hb
    · exact Or.inr ⟨rfl, le_refl _⟩
    · have hsorted : List.Sorted candLE (h0 :: t) :=
        hht ▸ List.sorted_insertionSort candLE ((E.map (sqDist q)).enum)
      exact List.rel_of_sorted_cons hsorted b hb
  have hcand : ∀ m, m < E.length → (m, sqDist q (E.getD m [])) ∈ sorted := by
    intro m hm
    rw [hsortdef, (List.perm_insertionSort candLE _).mem_iff]
    exact enum_map_mem (sqDist q) E m hm
  obtain ⟨n', hn'⟩ : ∃ n', min k A.length = n' + 1 :=
    ⟨min k A.length - 1, by omega⟩
  have hhits : knnSearch E q (min k A.length) = h0 :: List.take n' t := by
    unfold knnSearch
    rw [← hsortdef, hht, hn']
    rfl
  have hh0mem : h0 ∈ knnSearch E q (min k A.length) := by
    rw [hhits]; exact List.mem_cons_self _ _
  have hspec := knnSearch_mem_spec hh0mem
  have hd0 : h0.2 = 0 ∧ h0.1 ≤ i := by
    have hminI := hmin _ (hcand i hi)
    unfold candLE at hminI
    rw [show sqDist q (E.getD i []) = 0 from hq ▸ sqDist_self q] at hminI
    rcases hminI with hlt | ⟨heq, hle⟩
    · exfalso
      have hge : 0 ≤ h0.2 := hspec.2 ▸ sqDist_nonneg q (E.getD h0.1 [])
      exact absurd hlt (not_lt.mpr hge)
    · exact ⟨heq, hle⟩
  have hjq : E.getD h0.1 [] = q := by
    have hzero : sqDist q (E.getD h0.1 []) = 0 := hspec.2 ▸ hd0.1
    have hql : q.length = (E.getD h0.1 []).length :=
      (hdim (E.getD h0.1 []) (getD_mem_of_lt E h0.1 hspec.1)).symm
    exact (sqDist_eq_zero_iff q (E.getD h0.1 []) hql).mp hzero
  have hminj : ∀ m, m < h0.1 → E.getD m [] ≠ q := by
    intro m hm hme
    have hcm := hmin _ (hcand m (lt_trans hm (hd0.2.trans_lt hi)))
    unfold candLE at hcm
    rw [hme, show sqDist q q = 0 from sqDist_self q] at hcm
    rcases hcm with hlt | ⟨_, hle⟩
    · rw [hd0.1] at hlt
      exact absurd hlt (lt_irrefl 0)
    · have hle2 : h0.1 ≤ m := hle
      omega
  have hinv : s.vectors.length = s.assessments.length := by
    show E.length = A.length
    omega
  have hhead : (s.search q k).head? = some (A.getD h0.1 default, 0) := by
    rw [search_eq_map_hits s q k hinv]
    have hsh : s.searchHits q k = h0 :: List.take n' t := by
      unfold VectorStore.searchHits
      show knnSearch E q (min k A.length) = _
      exact hhits
    rw [hsh, List.map_cons, List.head?_cons]
    rw [hd0.1]
  refine ⟨h0.1, hd0.2, hjq, hminj, hhead, ?_⟩
  intro hno
  have hji : h0.1 = i := by
    rcases Nat.lt_or_ge h0.1 i with hlt | _
    · exact absurd hjq (hno h0.1 hlt)
    · omega
  rw [← hji]
  exact hhead

/-- Closed witness for C5: two stored vectors, the query equal to the
second one. -/
theorem search_exact_match_witness :
    ∃ s, add_assessments (VectorStore.init 1)
        [⟨some "a", none, none, none⟩, ⟨some "b", none, none, none⟩]
        [[5], [7]] = .ok s ∧
      ∃ j, j ≤ 1 ∧ ([[5], [7]] : List Vec).getD j [] = [7] ∧
        (∀ m, m < j → ([[5], [7]] : List Vec).getD m [] ≠ [7]) ∧
        (s.search [7] 2).head? = some
          (([⟨some "a", none, none, none⟩,
             ⟨some "b", none, none, none⟩] : List Assessment).getD j default,
            0) ∧
        ((∀ m, m < 1 → ([[5], [7]] : List Vec).getD m [] ≠ [7]) →
          (s.search [7] 2).head? = some (⟨some "b", none, none, none⟩, 0)) := by
  have h := search_exact_match (VectorStore.init 1)
    [⟨some "a", none, none, none⟩, ⟨some "b", none, none, none⟩]
    [[5], [7]] 1 2 rfl (by decide) (by decide)
    (by intro v hv; fin_cases hv <;> rfl)
  simpa using h

theorem load_install (t : VectorStore) (ip mp : String) (fs : FS)
    (d : Nat) (vs : List Vec) (as : List Assessment)
    (hip : fs ip = some (.indexFile d vs))
    (hmp : fs mp = some (.metaFile as)) :
    (t.load ip mp fs).vectors = vs ∧ (t.load ip mp fs).assessments = as := by
  have hload : t.load ip mp fs =
      (if as ≠ [] ∧ vs.length ≠ 0 then
        { dimension := d, vectors := vs, assessments := as }
      else { t with vectors := vs, assessments := as } : VectorStore) := by
    unfold VectorStore.load
    rw [hip, hmp]
  rw [hload]
  split
  · exact ⟨rfl, rfl⟩
  · exact ⟨rfl, rfl⟩

theorem search_ignores_dimension (d1 d2 : Nat) (V : List Vec)
    (A : List Assessment) (q : Vec) (k : Nat) :
    (VectorStore.mk d1 V A).search q k = (VectorStore.mk d2 V A).search q k := rfl

/-- C6: saving a populated store and then loading (into any store) restores
the assessment list exactly — same order, same count — and the reloaded
store answers every search query identically to the original. -/
theorem save_load_roundtrip (s t : VectorStore) (fs : FS) (ip mp : String)
    (hne : ip ≠ mp) (hpop : s.vectors ≠ []) :
    (t.load ip mp (s.save ip mp fs)).assessments = s.assessments ∧
    (t.load ip mp (s.save ip mp fs)).vectors = s.vectors ∧
    (∀ q k, (t.load ip mp (s.save ip mp fs)).search q k = s.search q k) := by
  have hip : (s.save ip mp fs) ip = some (.indexFile s.dimension s.vectors) := by
    unfold VectorStore.save fsWrite
    rw [if_neg hne, if_pos rfl]
  have hmp : (s.save ip mp fs) mp = some (.metaFile s.assessments) := by
    unfold VectorStore.save fsWrite
    rw [if_pos rfl]
  obtain ⟨hv, ha⟩ := load_install t ip mp (s.save ip mp fs) s.dimension
    s.vectors s.assessments hip hmp
  refine ⟨ha, hv, ?_⟩
  intro q k
  have hdecomp : t.load ip mp (s.save ip mp fs) =
      VectorStore.mk (t.load ip mp (s.save ip mp fs)).dimension
        s.vectors s.assessments := by
    cases hload : t.load ip mp (s.save ip mp fs)
    rw [hload] at hv ha
    simp only at hv ha
    rw [hv, ha]
  rw [hdecomp, search_ignores_dimension _ s.dimension]

/-- Closed witness for C6 at a concrete one-entry store. -/
theorem save_load_roundtrip_witness :
    ((VectorStore.init 7).load "idx" "meta"
        ((VectorStore.mk 1 [[3]] [default]).save "idx" "meta"
          (fun _ => none))).assessments = [default] := by
  have h := save_load_roundtrip (VectorStore.mk 1 [[3]] [default])
    (VectorStore.init 7) (fun _ => none) "idx" "meta" (by decide)
    (by decide)
  exact h.1

/-- C7 counterexample: `load` performs no cross-validation of the persisted
pair — a filesystem holding an index with one vector next to a metadata
document with two assessments is installed as is, breaking the
vector/assessment count invariant, so `load` neither installed a matching
pair nor left the store unchanged. -/
theorem load_installs_mismatched_pair :
    ((VectorStore.init 384).load "i" "m"
        (fun p => if p = "i" then some (.indexFile 1 [[0]])
          else if p = "m" then some (.metaFile [default, default])
          else none)).vectors.length = 1 ∧
    ((VectorStore.init 384).load "i" "m"
        (fun p => if p = "i" then some (.indexFile 1 [[0]])
          else if p = "m" then some (.metaFile [default, default])
          else none)).assessments.length = 2 ∧
    (1 : Nat) ≠ 2 := by
  refine ⟨rfl, rfl, by decide⟩

/-- C7 (amended): the vector/assessment count invariant holds in the
initial state; `add_assessments` rejects mismatched lengths with a
ValueError and never truncates, a successful add replaces all contents with
the given equal-length pair (restoring the invariant); `load` leaves the
store unchanged when either file is missing, and installs the persisted
pair without validating it — the invariant is preserved exactly when the
persisted counts match, as they do for any pair written by `save`. -/
theorem store_count_invariant (s : VectorStore) (A : List Assessment)
    (E : List Vec) (fs : FS) (ip mp : String) (d : Nat) :
    ((VectorStore.init d).vectors.length =
      (VectorStore.init d).assessments.length) ∧
    (A.length ≠ E.length → add_assessments s A E =
      .error "Number of assessments must match number of embeddings") ∧
    (A.length = E.length →
      add_assessments s A E = .ok { s with assessments := A, vectors := E } ∧
      E.length = A.length) ∧
    (∀ dim vs as, fs ip = some (.indexFile dim vs) →
      fs mp = some (.metaFile as) → vs.length = as.length →
      (s.load ip mp fs).vectors.length =
        (s.load ip mp fs).assessments.length) ∧
    (fs ip = none → s.load ip mp fs = s) ∧
    (fs mp = none → s.load ip mp fs = s) := by
  refine ⟨rfl, ?_, ?_, ?_, ?_, ?_⟩
  · intro h
    unfold add_assessments
    rw [if_pos h]
  · intro h
    refine ⟨?_, h.symm⟩
    unfold add_assessments
    rw [if_neg (by omega)]
  · intro dim vs as hipf hmpf hcnt
    obtain ⟨hv, ha⟩ := load_install s ip mp fs dim vs as hipf hmpf
    rw [hv, ha]
    exact hcnt
  · intro h
    unfold VectorStore.load
    rw [h]
  · intro h
    unfold VectorStore.load
    rw [h]
    cases fs ip with
    | none => rfl
    | some fd => cases fd <;> rfl

/-- Closed witness for the amended C7 at concrete data. -/
theorem store_count_invariant_witness :
    add_assessments (VectorStore.init 3) [default] [] =
      .error "Number of assessments must match number of embeddings" := by
  exact (store_count_invariant (VectorStore.init 3) [default] []
    (fun _ => none) "i" "m" 3).2.1 (by decide)

/-! ## Reranker (backend/app/reranker.py) and orchestrator output
(backend/app/recommend.py) -/

/-- `LLMReranker.rerank(query, assessments, top_k)`.  The single
language-model invocation is an explicit outcome: `.ok` carries the
response text, `.error` any exception from the call or its handling.  An
empty candidate list short-circuits; a failure reverts to the original
order truncated to `top_k`; a response is parsed, mapped back to
assessments, completed with the unranked ones, and truncated. -/
def rerank (assessments : List Assessment) (top_k : Nat)
    (outcome : Except String String) : List Assessment :=
  if assessments.isEmpty then []
  else
    match outcome with
    | .error _ => assessments.take top_k
    | .ok ranked_text =>
      let ranked_indices :=
        parse_ranked_order ranked_text.toList assessments.length
      let reranked := ranked_indices.filterMap (fun i =>
        if 1 ≤ i ∧ i ≤ assessments.length then assessments.get? (i - 1)
        else none)
      let extra := (assessments.enum.filter
        (fun p => p.1 + 1 ∉ ranked_indices)).map Prod.snd
      (reranked ++ extra).take top_k

/-- C8: whenever the language-model invocation (or the handling of its
response) fails, `rerank` returns the original candidate list in its
original order truncated to `top_k`; no error reaches the caller (the model
is consulted at most once per call in the embedding: a single outcome,
never a second backend). -/
theorem rerank_fail_open (assessments : List Assessment) (top_k : Nat)
    (e : String) :
    rerank assessments top_k (.error e) = assessments.take top_k := by
  unfold rerank
  by_cases h : assessments.isEmpty
  · rw [if_pos h]
    rw [List.isEmpty_iff.mp h]
    exact List.take_nil.symm
  · rw [if_neg h]

/-- The output view built by `RecommendationEngine.recommend` for each
surviving assessment. -/
structure RecommendationView where
  assessment_name : String
  assessment_url : String
  test_type : String
  description : String
deriving DecidableEq, Repr

/-- The per-assessment formatting step of `recommend`: `dict.get` defaults
"Unknown" for the name and the test type, empty strings for url and
description. -/
def formatAssessment (a : Assessment) : RecommendationView :=
  { assessment_name := a.name.getD "Unknown"
    assessment_url := a.url.getD ""
    test_type := a.type.getD "Unknown"
    description := a.description.getD "" }

/-- `RecommendationEngine.recommend(query, top_k)` after the query has been
embedded: over-fetch `top_k * 2` when a reranker is active else `top_k`,
rerank when active and more than one candidate was retrieved, truncate to
`top_k`, format. -/
def recommend (s : VectorStore) (rerankerActive : Bool)
    (outcome : Except String String) (query_embedding : Vec)
    (top_k : Nat) : List RecommendationView :=
  let search_k := if rerankerActive then top_k * 2 else top_k
  let results := s.search query_embedding search_k
  let assessments := results.map Prod.fst
  let finalAssessments :=
    if rerankerActive ∧ assessments.length > 1 then
      rerank assessments top_k outcome
    else assessments
  (finalAssessments.take top_k).map formatAssessment

/-- C9: `recommend` retrieves `top_k * 2` candidates when a reranker is
active and exactly `top_k` otherwise; it invokes the reranker exactly when
one is active and more than one candidate was retrieved, keeping the first
`top_k` of the resulting list; and it formats each surviving assessment
with "Unknown"/empty defaults for missing fields instead of failing. -/
theorem recommend_flow (s : VectorStore) (o : Except String String)
    (q : Vec) (k : Nat) :
    (recommend s false o q k =
      (((s.search q k).map Prod.fst).take k).map formatAssessment) ∧
    (((s.search q (k * 2)).map Prod.fst).length > 1 →
      recommend s true o q k =
        ((rerank ((s.search q (k * 2)).map Prod.fst) k o).take k).map
          formatAssessment) ∧
    (((s.search q (k * 2)).map Prod.fst).length ≤ 1 →
      recommend s true o q k =
        ((((s.search q (k * 2)).map Prod.fst)).take k).map
          formatAssessment) ∧
    formatAssessment ⟨none, none, none, none⟩ =
      ⟨"Unknown", "", "Unknown", ""⟩ ∧
    (∀ nm ds ur ty, formatAssessment ⟨some nm, some ds, some ur, some ty⟩ =
      ⟨nm, ur, ty, ds⟩) := by
  refine ⟨?_, ?_, ?_, rfl, fun _ _ _ _ => rfl⟩
  · unfold recommend
    simp
  · intro h
    unfold recommend
    simp only [List.length_map] at h
    simp [h]
  · intro h
    unfold recommend
    simp only [List.length_map] at h
    simp [not_lt.mpr h]

/-- Closed witness for C9: the inactive-reranker branch on an empty store
and the active-reranker branch on a two-entry store. -/
theorem recommend_flow_witness :
    (recommend (VectorStore.mk 1 [] []) false (.error "x") [0] 2 =
      ((((VectorStore.mk 1 [] []).search [0] 2).map Prod.fst).take 2).map
        formatAssessment) ∧
    (recommend (VectorStore.mk 1 [[0], [1]] [default, default]) true
        (.error "x") [0] 1 =
      ((rerank (((VectorStore.mk 1 [[0], [1]]
          [default, default]).search [0] (1 * 2)).map Prod.fst) 1
        (.error "x")).take 1).map formatAssessment) := by
  constructor
  · exact (recommend_flow (VectorStore.mk 1 [] []) (.error "x") [0] 2).1
  · apply (recommend_flow (VectorStore.mk 1 [[0], [1]] [default, default])
      (.error "x") [0] 1).2.1
    rw [List.length_map,
      search_eq_map_hits (VectorStore.mk 1 [[0], [1]] [default, default])
        [0] (1 * 2) rfl, List.length_map]
    show 1 < (VectorStore.searchHits _ _ _).length
    unfold VectorStore.searchHits
    rw [knnSearch_length]
    decide
